import Mathlib

/-!
Verification of the B-tree node codec (`src/b_node.rs`).

A node is a fixed 4096-byte page.  We model the page as a function from byte
index to a stored value; every read goes through `byteAt`, which reduces the
stored value modulo 256, so every observable byte is in `[0, 256)` exactly as
for a real `u8` array.  The Rust accessors compute offsets in `u16`
arithmetic, which wraps modulo 65536 (release semantics); each arithmetic
step of the source is therefore modelled with an explicit `% 65536`.  Rust
slice indexing `data[a..b]` panics when `a > b` or `b > 4096`; a panic
(including a failed `assert!`, a failed `try_into().unwrap()`, and
`unreachable!`) is modelled as `none`.
-/

/-- Header size constant (`HEADER` in the source). -/
def HEADER : Nat := 4

/-- Page size constant (`BTREE_PAGE_SIZE` in the source). -/
def BTREE_PAGE_SIZE : Nat := 4096

/-- Maximum key size constant (`BTREE_MAX_KEY_SIZE` in the source). -/
def BTREE_MAX_KEY_SIZE : Nat := 1000

/-- Maximum value size constant (`BTREE_MAX_VAL_SIZE` in the source). -/
def BTREE_MAX_VAL_SIZE : Nat := 3000

/-- The raw page of a node (`BNode.data: [u8; 4096]`).  The byte at index `k`
is `data k % 256`; indices at and beyond 4096 are never read or written by a
successful operation, which is part of what we prove. -/
structure BNode where
  data : Nat → Nat

/-- The `u8` stored at index `k` of the page. -/
def byteAt (nd : BNode) (k : Nat) : Nat := nd.data k % 256

/-- The list of bytes at indices `a, a+1, ..., a+len-1` of the page. -/
def pageBytes (nd : BNode) (a len : Nat) : List Nat :=
  (List.range len).map fun t => byteAt nd (a + t)

/-- Rust slice read `&self.data[a..b]`: panics (`none`) unless
`a ≤ b ≤ BTREE_PAGE_SIZE`, otherwise yields the bytes in `[a, b)`. -/
def sliceBytes (nd : BNode) (a b : Nat) : Option (List Nat) :=
  if a ≤ b ∧ b ≤ BTREE_PAGE_SIZE then some (pageBytes nd a (b - a)) else none

/-- Overwrite the bytes at indices `a, ..., a + bs.length - 1` with `bs`,
leaving every other index unchanged. -/
def writeBytes (nd : BNode) (a : Nat) (bs : List Nat) : BNode :=
  ⟨fun k => if a ≤ k ∧ k < a + bs.length then bs.getD (k - a) 0 else nd.data k⟩

/-- Rust `self.data[a..b].copy_from_slice(bs)`: panics (`none`) unless the
destination range is a valid slice of the page of exactly the source's
length. -/
def writeBytesChecked (nd : BNode) (a b : Nat) (bs : List Nat) : Option BNode :=
  if a ≤ b ∧ b ≤ BTREE_PAGE_SIZE ∧ b - a = bs.length then some (writeBytes nd a bs) else none

/-- Little-endian decoding of a byte list. -/
def le_decode : List Nat → Nat
  | [] => 0
  | b :: bs => b + 256 * le_decode bs

/-- `u16::from_le_bytes(bs.try_into().unwrap())`: the `try_into` panics
(`none`) unless the slice has exactly 2 bytes. -/
def u16_from_le_bytes (bs : List Nat) : Option Nat :=
  if bs.length = 2 then some (le_decode bs) else none

/-- `u64::from_le_bytes(bs.try_into().unwrap())`: the `try_into` panics
(`none`) unless the slice has exactly 8 bytes. -/
def u64_from_le_bytes (bs : List Nat) : Option Nat :=
  if bs.length = 8 then some (le_decode bs) else none

/-- `u16::to_le_bytes`. -/
def u16_to_le_bytes (v : Nat) : List Nat := [v % 256, v / 256 % 256]

/-- `u64::to_le_bytes`. -/
def u64_to_le_bytes (v : Nat) : List Nat :=
  [v % 256, v / 256 % 256, v / 65536 % 256, v / 16777216 % 256,
   v / 4294967296 % 256, v / 1099511627776 % 256,
   v / 281474976710656 % 256, v / 72057594037927936 % 256]

/-- `BNodeType` from the source. -/
inductive BNodeType where
  | InternalNode : BNodeType
  | LeafNode : BNodeType
deriving DecidableEq

/-- `BNodeType::from_u16`: the `unreachable!` arm for a tag other than 1 or 2
is a fatal panic, modelled as `none`. -/
def BNodeType.from_u16 (n : Nat) : Option BNodeType :=
  match n with
  | 1 => some BNodeType.InternalNode
  | 2 => some BNodeType.LeafNode
  | _ => none

/-- `BNode::b_type`: decode the 2-byte little-endian tag at offset 0 (the
slice `data[0..2]` is always in bounds of the 4096-byte page). -/
def b_type (nd : BNode) : Option BNodeType :=
  BNodeType.from_u16 (byteAt nd 0 + 256 * byteAt nd 1)

/-- `BNode::n_keys`: decode the 2-byte little-endian count at offset 2 (the
slice `data[2..4]` is always in bounds). -/
def n_keys (nd : BNode) : Nat := byteAt nd 2 + 256 * byteAt nd 3

/-- `BNode::set_header`: write the type tag into bytes 0..2 and the key count
into bytes 2..4 (both constant-range writes are always in bounds). -/
def set_header (nd : BNode) (b_type n_keys : Nat) : BNode :=
  writeBytes (writeBytes nd 0 (u16_to_le_bytes b_type)) 2 (u16_to_le_bytes n_keys)

/-- `BNode::get_ptr`: `assert!(idx < n_keys)`, then read 8 bytes at
`position = HEADER + 8 * idx` (`u16` arithmetic). -/
def get_ptr (nd : BNode) (idx : Nat) : Option Nat :=
  if idx < n_keys nd then
    (sliceBytes nd ((HEADER + 8 * idx) % 65536)
        (((HEADER + 8 * idx) % 65536 + 8) % 65536)).bind u64_from_le_bytes
  else none

/-- `BNode::set_ptr`: `assert!(idx < n_keys)`, then overwrite the 8 bytes at
`position = HEADER + 8 * idx` (`u16` arithmetic). -/
def set_ptr (nd : BNode) (idx value : Nat) : Option BNode :=
  if idx < n_keys nd then
    writeBytesChecked nd ((HEADER + 8 * idx) % 65536)
      (((HEADER + 8 * idx) % 65536 + 8) % 65536) (u64_to_le_bytes value)
  else none

/-- `BNode::offset_position`: `assert!(1 < idx && idx < n_keys)`, then return
`HEADER + 8 * n_keys + 2 * (idx - 1)` (`u16` arithmetic). -/
def offset_position (nd : BNode) (idx : Nat) : Option Nat :=
  if 1 < idx ∧ idx < n_keys nd then
    some ((HEADER + 8 * n_keys nd + 2 * (idx - 1)) % 65536)
  else none

/-- `BNode::get_offset`: 0 for `idx == 0`, otherwise the 2-byte little-endian
value at `offset_position idx`. -/
def get_offset (nd : BNode) (idx : Nat) : Option Nat :=
  if idx = 0 then some 0
  else (offset_position nd idx).bind fun p =>
    (sliceBytes nd p ((p + 2) % 65536)).bind u16_from_le_bytes

/-- `BNode::set_offset`: overwrite the 2 bytes at `offset_position idx`. -/
def set_offset (nd : BNode) (idx value : Nat) : Option BNode :=
  (offset_position nd idx).bind fun p =>
    writeBytesChecked nd p ((p + 2) % 65536) (u16_to_le_bytes value)

/-- `BNode::get_kv_pair_position`: `assert!(idx < n_keys)`, then
`HEADER + 8 * n_keys + 2 * n_keys + get_offset idx` (`u16` arithmetic). -/
def get_kv_pair_position (nd : BNode) (idx : Nat) : Option Nat :=
  if idx < n_keys nd then
    (get_offset nd idx).map fun off =>
      (HEADER + 8 * n_keys nd + 2 * n_keys nd + off) % 65536
  else none

/-- `BNode::get_key`: `assert!(idx < n_keys)`; read the 2-byte key length at
the record position, then return the `key_length` bytes starting 4 bytes
after the record position (`u16` arithmetic throughout). -/
def get_key (nd : BNode) (idx : Nat) : Option (List Nat) :=
  if idx < n_keys nd then
    (get_kv_pair_position nd idx).bind fun position =>
      ((sliceBytes nd position ((position + 2) % 65536)).bind u16_from_le_bytes).bind
        fun key_length =>
          sliceBytes nd ((position + 4) % 65536)
            (((position + 4) % 65536 + key_length) % 65536)
  else none

/-- `BNode::get_value`: `assert!(idx < n_keys)`; read the 2-byte key length
and the 2-byte value length at the record position, then return the
`value_length` bytes starting at `position + 4 + key_length`
(`u16` arithmetic throughout). -/
def get_value (nd : BNode) (idx : Nat) : Option (List Nat) :=
  if idx < n_keys nd then
    (get_kv_pair_position nd idx).bind fun position =>
      ((sliceBytes nd position ((position + 2) % 65536)).bind u16_from_le_bytes).bind
        fun key_length =>
          ((sliceBytes nd ((position + 2) % 65536) ((position + 4) % 65536)).bind
              u16_from_le_bytes).bind fun value_length =>
            sliceBytes nd (((position + 4) % 65536 + key_length) % 65536)
              ((((position + 4) % 65536 + key_length) % 65536 + value_length) % 65536)
  else none

/-- `BNode::num_used_bytes`: `get_kv_pair_position(n_keys())`. -/
def num_used_bytes (nd : BNode) : Option Nat :=
  get_kv_pair_position nd (n_keys nd)

/-- Write pointer slots `i, i+1, ...` with the given values, stopping at the
first panic; models a node-construction loop of `set_ptr` calls. -/
def setPtrsFrom (nd : BNode) (i : Nat) : List Nat → Option BNode
  | [] => some nd
  | p :: ps => (set_ptr nd i p).bind fun nd1 => setPtrsFrom nd1 (i + 1) ps

/-- Write pointer slots `0, 1, ...` with the given values. -/
def setPtrs (nd : BNode) (ps : List Nat) : Option BNode := setPtrsFrom nd 0 ps

/-- The all-zero page. -/
def zeroNode : BNode := ⟨fun _ => 0⟩

/-- A leaf header claiming 2 keys over an otherwise zero page. -/
def node2 : BNode := set_header zeroNode 2 2

/-- A leaf header claiming 1000 keys over an otherwise zero page; 1000 key
slots cannot fit in a 4096-byte page. -/
def node1000 : BNode := set_header zeroNode 2 1000

/-- An internal node with 3 keys and child pointers 10, 20, 30 (end-to-end
scenario 2 of the spec). -/
def nodePtr3 : BNode :=
  ⟨fun k =>
    if k = 0 then 1 else if k = 2 then 3 else
    if k = 4 then 10 else if k = 12 then 20 else if k = 20 then 30 else 0⟩

/-- A page whose key count field is 65535 and whose pointer slot 0 holds the
value 7; all other bytes are zero. -/
def nodeF : BNode :=
  ⟨fun k => if k = 2 then 255 else if k = 3 then 255 else if k = 4 then 7 else 0⟩

/-- A page whose type tag field holds 7, an invalid tag. -/
def nodeTag7 : BNode := ⟨fun k => if k = 0 then 7 else 0⟩

/-! ### Basic lemmas about the byte model -/

theorem byteAt_lt_256 (nd : BNode) (k : Nat) : byteAt nd k < 256 :=
  Nat.mod_lt _ (by omega)

theorem n_keys_lt_65536 (nd : BNode) : n_keys nd < 65536 := by
  have h2 := byteAt_lt_256 nd 2
  have h3 := byteAt_lt_256 nd 3
  unfold n_keys
  omega

theorem pageBytes_length (nd : BNode) (a len : Nat) : (pageBytes nd a len).length = len := by
  simp [pageBytes]

theorem pageBytes_mem_lt (nd : BNode) (a len : Nat) :
    ∀ x ∈ pageBytes nd a len, x < 256 := by
  intro x hx
  simp only [pageBytes, List.mem_map] at hx
  obtain ⟨t, _, rfl⟩ := hx
  exact byteAt_lt_256 nd (a + t)

theorem le_decode_lt (l : List Nat) (h : ∀ x ∈ l, x < 256) :
    le_decode l < 256 ^ l.length := by
  induction l with
  | nil => simp [le_decode]
  | cons b bs ih =>
    have hb : b < 256 := h b (by simp)
    have hbs := ih fun x hx => h x (by simp [hx])
    simp only [le_decode, List.length_cons, pow_succ]
    calc b + 256 * le_decode bs < 256 + 256 * le_decode bs := by omega
    _ = 256 * (le_decode bs + 1) := by ring
    _ ≤ 256 * 256 ^ bs.length := by
          have : le_decode bs + 1 ≤ 256 ^ bs.length := hbs
          exact Nat.mul_le_mul_left 256 this
    _ = 256 ^ bs.length * 256 := by ring

theorem le_decode_pageBytes_two_lt (nd : BNode) (a : Nat) :
    le_decode (pageBytes nd a 2) < 65536 := by
  have := le_decode_lt (pageBytes nd a 2) (pageBytes_mem_lt nd a 2)
  rwa [pageBytes_length] at this

theorem pageBytes_congr (nd1 nd2 : BNode) (a len : Nat)
    (h : ∀ t, t < len → byteAt nd1 (a + t) = byteAt nd2 (a + t)) :
    pageBytes nd1 a len = pageBytes nd2 a len := by
  unfold pageBytes
  apply List.map_congr_left
  intro t ht
  exact h t (List.mem_range.mp ht)

/-- Evaluation of a slice read whose end bound is the wrapped `a + len`. -/
theorem slice_mod (nd : BNode) (a b len : Nat) (hb : b = (a + len) % 65536)
    (ha : a < 65536) (hl : len < 65536) :
    sliceBytes nd a b = if a + len ≤ 4096 then some (pageBytes nd a len) else none := by
  unfold sliceBytes BTREE_PAGE_SIZE
  by_cases h : a + len < 65536
  · have hb2 : b = a + len := by rw [hb]; exact Nat.mod_eq_of_lt h
    subst hb2
    by_cases h2 : a + len ≤ 4096
    · rw [if_pos ⟨Nat.le_add_right a len, h2⟩, if_pos h2]
      have : a + len - a = len := by omega
      rw [this]
    · rw [if_neg (fun hc => h2 hc.2), if_neg h2]
  · have hb2 : b = a + len - 65536 := by rw [hb]; omega
    rw [if_neg, if_neg]
    · omega
    · intro hc
      have := hc.1
      omega

/-- Evaluation of a checked write whose end bound is the wrapped
`a + bs.length`. -/
theorem writeBytesChecked_mod (nd : BNode) (a b : Nat) (bs : List Nat) (len : Nat)
    (hlen : bs.length = len) (hb : b = (a + len) % 65536) (ha : a < 65536)
    (hl : len < 65536) :
    writeBytesChecked nd a b bs =
      if a + len ≤ 4096 then some (writeBytes nd a bs) else none := by
  unfold writeBytesChecked BTREE_PAGE_SIZE
  by_cases h : a + len < 65536
  · have hb2 : b = a + len := by rw [hb]; exact Nat.mod_eq_of_lt h
    subst hb2
    by_cases h2 : a + len ≤ 4096
    · rw [if_pos ⟨Nat.le_add_right a len, h2, by omega⟩, if_pos h2]
    · rw [if_neg (fun hc => h2 hc.2.1), if_neg h2]
  · have hb2 : b = a + len - 65536 := by rw [hb]; omega
    rw [if_neg, if_neg]
    · omega
    · intro hc
      have := hc.1
      omega

theorem byteAt_writeBytes (nd : BNode) (a : Nat) (bs : List Nat) (k : Nat) :
    byteAt (writeBytes nd a bs) k =
      if a ≤ k ∧ k < a + bs.length then bs.getD (k - a) 0 % 256 else byteAt nd k := by
  unfold byteAt writeBytes
  dsimp only
  split
  · rfl
  · rfl

theorem byteAt_writeBytes_in (nd : BNode) (a t : Nat) (bs : List Nat)
    (h : t < bs.length) :
    byteAt (writeBytes nd a bs) (a + t) = bs.getD t 0 % 256 := by
  rw [byteAt_writeBytes, if_pos ⟨Nat.le_add_right a t, by omega⟩,
    Nat.add_sub_cancel_left]

theorem byteAt_writeBytes_out (nd : BNode) (a : Nat) (bs : List Nat) (k : Nat)
    (h : k < a ∨ a + bs.length ≤ k) :
    byteAt (writeBytes nd a bs) k = byteAt nd k := by
  rw [byteAt_writeBytes, if_neg]
  intro hc
  omega

/-! ### Evaluation lemmas for the pointer accessors -/

theorem u64_to_le_bytes_length (v : Nat) : (u64_to_le_bytes v).length = 8 := rfl

theorem u16_to_le_bytes_length (v : Nat) : (u16_to_le_bytes v).length = 2 := rfl

/-- As long as the slot-offset computation cannot wrap (`idx < 8192`),
`get_ptr` succeeds exactly on an in-range index whose slot lies inside the
page, and then returns the decode of the 8 bytes at `4 + 8 * idx`. -/
theorem get_ptr_eq (nd : BNode) (idx : Nat) (h8 : idx < 8192) :
    get_ptr nd idx =
      if idx < n_keys nd ∧ 4 + 8 * idx + 8 ≤ 4096 then
        some (le_decode (pageBytes nd (4 + 8 * idx) 8))
      else none := by
  unfold get_ptr HEADER
  have hpos : (4 + 8 * idx) % 65536 = 4 + 8 * idx := Nat.mod_eq_of_lt (by omega)
  rw [hpos, slice_mod nd (4 + 8 * idx) ((4 + 8 * idx + 8) % 65536) 8 rfl (by omega) (by omega)]
  by_cases h1 : idx < n_keys nd
  · by_cases h2 : 4 + 8 * idx + 8 ≤ 4096
    · rw [if_pos h1, if_pos h2, if_pos ⟨h1, h2⟩]
      simp [u64_from_le_bytes, pageBytes_length]
    · rw [if_pos h1, if_neg h2, if_neg (fun hc => h2 hc.2)]
      rfl
  · rw [if_neg h1, if_neg (fun hc => h1 hc.1)]

/-- The `set_ptr` analogue of `get_ptr_eq`. -/
theorem set_ptr_eq (nd : BNode) (idx v : Nat) (h8 : idx < 8192) :
    set_ptr nd idx v =
      if idx < n_keys nd ∧ 4 + 8 * idx + 8 ≤ 4096 then
        some (writeBytes nd (4 + 8 * idx) (u64_to_le_bytes v))
      else none := by
  unfold set_ptr HEADER
  have hpos : (4 + 8 * idx) % 65536 = 4 + 8 * idx := Nat.mod_eq_of_lt (by omega)
  rw [hpos, writeBytesChecked_mod nd (4 + 8 * idx) ((4 + 8 * idx + 8) % 65536)
    (u64_to_le_bytes v) 8 (u64_to_le_bytes_length v) rfl (by omega) (by omega)]
  by_cases h1 : idx < n_keys nd
  · by_cases h2 : 4 + 8 * idx + 8 ≤ 4096
    · rw [if_pos h1, if_pos h2, if_pos ⟨h1, h2⟩]
    · rw [if_pos h1, if_neg h2, if_neg (fun hc => h2 hc.2)]
  · rw [if_neg h1, if_neg (fun hc => h1 hc.1)]

theorem n_keys_congr (nd1 nd2 : BNode) (h2 : byteAt nd1 2 = byteAt nd2 2)
    (h3 : byteAt nd1 3 = byteAt nd2 3) : n_keys nd1 = n_keys nd2 := by
  unfold n_keys
  rw [h2, h3]

theorem b_type_congr (nd1 nd2 : BNode) (h0 : byteAt nd1 0 = byteAt nd2 0)
    (h1 : byteAt nd1 1 = byteAt nd2 1) : b_type nd1 = b_type nd2 := by
  unfold b_type
  rw [h0, h1]

theorem n_keys_writeBytes_high (nd : BNode) (a : Nat) (bs : List Nat) (ha : 4 ≤ a) :
    n_keys (writeBytes nd a bs) = n_keys nd :=
  n_keys_congr _ _ (byteAt_writeBytes_out nd a bs 2 (by omega))
    (byteAt_writeBytes_out nd a bs 3 (by omega))

/-- Reading a pointer slot only depends on the key count and on the slot's
8 bytes. -/
theorem get_ptr_congr (nd1 nd2 : BNode) (j : Nat) (hj : j < 8192)
    (hk : n_keys nd1 = n_keys nd2)
    (hb : ∀ k, 4 + 8 * j ≤ k → k < 4 + 8 * j + 8 → byteAt nd1 k = byteAt nd2 k) :
    get_ptr nd1 j = get_ptr nd2 j := by
  rw [get_ptr_eq nd1 j hj, get_ptr_eq nd2 j hj, hk]
  by_cases h : j < n_keys nd2 ∧ 4 + 8 * j + 8 ≤ 4096
  · rw [if_pos h, if_pos h]
    have : pageBytes nd1 (4 + 8 * j) 8 = pageBytes nd2 (4 + 8 * j) 8 :=
      pageBytes_congr nd1 nd2 (4 + 8 * j) 8 (fun t ht => hb (4 + 8 * j + t) (by omega) (by omega))
    rw [this]
  · rw [if_neg h, if_neg h]

theorem le_decode_u64_to_le_bytes (p : Nat) :
    le_decode ((u64_to_le_bytes p).map fun x => x % 256) = p % 18446744073709551616 := by
  show p % 256 % 256 + 256 * (p / 256 % 256 % 256 + 256 * (p / 65536 % 256 % 256 +
    256 * (p / 16777216 % 256 % 256 + 256 * (p / 4294967296 % 256 % 256 +
    256 * (p / 1099511627776 % 256 % 256 + 256 * (p / 281474976710656 % 256 % 256 +
    256 * (p / 72057594037927936 % 256 % 256 + 256 * 0))))))) = p % 18446744073709551616
  omega

theorem pageBytes_writeBytes (nd : BNode) (a : Nat) (bs : List Nat) :
    pageBytes (writeBytes nd a bs) a bs.length = bs.map fun x => x % 256 := by
  apply List.ext_getElem
  · rw [pageBytes_length, List.length_map]
  · intro t h1 h2
    rw [pageBytes_length] at h1
    have hpb : (pageBytes (writeBytes nd a bs) a bs.length)[t] =
        byteAt (writeBytes nd a bs) (a + t) := by
      simp [pageBytes]
    have hg : bs.getD t 0 = bs[t] := List.getD_eq_getElem bs 0 h1
    rw [hpb, byteAt_writeBytes_in nd a t bs h1, hg, List.getElem_map]

/-- Reading back a pointer slot just overwritten with the encoding of `p`
yields `p` reduced to 64 bits. -/
theorem get_ptr_after_write (nd : BNode) (i p : Nat) (hfit : 4 + 8 * i + 8 ≤ 4096)
    (hik : i < n_keys nd) :
    get_ptr (writeBytes nd (4 + 8 * i) (u64_to_le_bytes p)) i =
      some (p % 18446744073709551616) := by
  have hk : n_keys (writeBytes nd (4 + 8 * i) (u64_to_le_bytes p)) = n_keys nd :=
    n_keys_writeBytes_high nd (4 + 8 * i) (u64_to_le_bytes p) (by omega)
  rw [get_ptr_eq _ i (by omega), hk, if_pos ⟨hik, hfit⟩]
  have hpb : pageBytes (writeBytes nd (4 + 8 * i) (u64_to_le_bytes p)) (4 + 8 * i) 8 =
      (u64_to_le_bytes p).map fun x => x % 256 := by
    have := pageBytes_writeBytes nd (4 + 8 * i) (u64_to_le_bytes p)
    rwa [u64_to_le_bytes_length] at this
  rw [hpb, le_decode_u64_to_le_bytes]

/-! ### Lemmas about `set_header` and the offset table -/

theorem byteAt_set_header (nd : BNode) (t n k : Nat) :
    byteAt (set_header nd t n) k =
      if k = 0 then t % 256 else if k = 1 then t / 256 % 256
      else if k = 2 then n % 256 else if k = 3 then n / 256 % 256
      else byteAt nd k := by
  unfold set_header
  rw [byteAt_writeBytes, byteAt_writeBytes]
  simp only [u16_to_le_bytes, List.length_cons, List.length_nil]
  by_cases h0 : k = 0
  · subst h0; simp
  · by_cases h1 : k = 1
    · subst h1; simp [List.getD]
    · by_cases h2 : k = 2
      · subst h2; simp [List.getD]
      · by_cases h3 : k = 3
        · subst h3; simp [List.getD]
        · rw [if_neg (by omega), if_neg (by omega), if_neg h0, if_neg h1, if_neg h2,
            if_neg h3]

theorem n_keys_set_header (nd : BNode) (t n : Nat) :
    n_keys (set_header nd t n) = n % 65536 := by
  unfold n_keys
  rw [byteAt_set_header, byteAt_set_header]
  simp only [if_neg, if_pos]
  norm_num
  omega

theorem b_type_set_header (nd : BNode) (t n : Nat) :
    b_type (set_header nd t n) = BNodeType.from_u16 (t % 65536) := by
  unfold b_type
  rw [byteAt_set_header, byteAt_set_header]
  norm_num
  congr 1
  omega

/-- Evaluation of `offset_position` when its formula cannot wrap. -/
theorem offset_position_eq (nd : BNode) (idx : Nat)
    (h : 4 + 8 * n_keys nd + 2 * (idx - 1) < 65536) :
    offset_position nd idx =
      if 1 < idx ∧ idx < n_keys nd then some (4 + 8 * n_keys nd + 2 * (idx - 1))
      else none := by
  unfold offset_position HEADER
  rw [Nat.mod_eq_of_lt h]

/-- Evaluation of `get_offset` on a nonzero index when the table-entry
position cannot wrap. -/
theorem get_offset_eq (nd : BNode) (idx : Nat) (h0 : idx ≠ 0)
    (h : 4 + 8 * n_keys nd + 2 * (idx - 1) + 2 < 65536) :
    get_offset nd idx =
      if 1 < idx ∧ idx < n_keys nd ∧ 4 + 8 * n_keys nd + 2 * (idx - 1) + 2 ≤ 4096 then
        some (le_decode (pageBytes nd (4 + 8 * n_keys nd + 2 * (idx - 1)) 2))
      else none := by
  unfold get_offset
  rw [if_neg h0, offset_position_eq nd idx (by omega)]
  by_cases h1 : 1 < idx ∧ idx < n_keys nd
  · rw [if_pos h1, Option.some_bind,
      slice_mod nd (4 + 8 * n_keys nd + 2 * (idx - 1)) _ 2 rfl (by omega) (by omega)]
    by_cases h2 : 4 + 8 * n_keys nd + 2 * (idx - 1) + 2 ≤ 4096
    · rw [if_pos h2, if_pos ⟨h1.1, h1.2, h2⟩, Option.some_bind]
      simp [u16_from_le_bytes, pageBytes_length]
    · rw [if_neg h2, if_neg (fun hc => h2 hc.2.2)]
      rfl
  · rw [if_neg h1, if_neg (fun hc => h1 ⟨hc.1, hc.2.1⟩)]
    rfl

/-- `offset_position` rejects index 1 outright (`assert!(1 < idx)`), so
`get_offset` panics on index 1 regardless of the node. -/
theorem get_offset_one_none (nd : BNode) : get_offset nd 1 = none := by
  unfold get_offset offset_position
  norm_num

/-- Consequently `get_kv_pair_position` panics on index 1 regardless of the
node. -/
theorem get_kv_pair_position_one_none (nd : BNode) :
    get_kv_pair_position nd 1 = none := by
  unfold get_kv_pair_position
  rw [get_offset_one_none]
  simp

/-- Any result of `get_offset` is a `u16` value. -/
theorem get_offset_some_lt (nd : BNode) (idx off : Nat)
    (h : get_offset nd idx = some off) : off < 65536 := by
  unfold get_offset at h
  split at h
  · injection h with h
    omega
  · simp only [Option.bind_eq_some] at h
    obtain ⟨p, hp, l, hl, h2⟩ := h
    unfold u16_from_le_bytes at h2
    split at h2
    · injection h2 with h2
      have hmem : ∀ x ∈ l, x < 256 := by
        unfold sliceBytes at hl
        split at hl
        · injection hl with hl
          intro x hx
          rw [← hl] at hx
          exact pageBytes_mem_lt _ _ _ x hx
        · exact absurd hl (by simp)
      have hd := le_decode_lt l hmem
      rename_i hlen
      rw [hlen] at hd
      rw [← h2]
      calc le_decode l < 256 ^ 2 := hd
      _ = 65536 := by norm_num
    · exact absurd h2 (by simp)

/-- Eliminate a successful `get_kv_pair_position`. -/
theorem get_kv_pair_position_some_elim (nd : BNode) (idx v : Nat)
    (h : get_kv_pair_position nd idx = some v) :
    idx < n_keys nd ∧ ∃ off, get_offset nd idx = some off ∧
      v = (4 + 8 * n_keys nd + 2 * n_keys nd + off) % 65536 := by
  unfold get_kv_pair_position HEADER at h
  by_cases h1 : idx < n_keys nd
  · rw [if_pos h1] at h
    rcases hoff : get_offset nd idx with _ | off
    · rw [hoff] at h
      exact absurd h (by simp)
    · rw [hoff] at h
      simp only [Option.map_some'] at h
      injection h with h
      exact ⟨h1, off, rfl, h.symm⟩
  · rw [if_neg h1] at h
    exact absurd h (by simp)

/-! ### The pointer-writing loop -/

/-- Writing slots `i, ..., i + ps.length - 1` succeeds when all the slots fit
inside the page and below the key count, leaves the bytes before slot `i` and
after the written slots untouched, and every written slot reads back as the
value written (reduced to 64 bits). -/
theorem setPtrsFrom_spec (ps : List Nat) : ∀ (nd : BNode) (i : Nat),
    4 + 8 * i + 8 * ps.length ≤ 4096 → i + ps.length ≤ n_keys nd →
    ∃ nd1, setPtrsFrom nd i ps = some nd1 ∧
      (∀ k, k < 4 + 8 * i → byteAt nd1 k = byteAt nd k) ∧
      (∀ k, 4 + 8 * i + 8 * ps.length ≤ k → byteAt nd1 k = byteAt nd k) ∧
      ∀ j, (hj : j < ps.length) →
        get_ptr nd1 (i + j) = some (ps.get ⟨j, hj⟩ % 18446744073709551616) := by
  induction ps with
  | nil =>
    intro nd i _ _
    exact ⟨nd, rfl, fun _ _ => rfl, fun _ _ => rfl, fun j hj => absurd hj (by simp)⟩
  | cons p ps ih =>
    intro nd i hfit hkeys
    simp only [List.length_cons] at hfit hkeys
    have hi : i < n_keys nd := by omega
    have hfit8 : 4 + 8 * i + 8 ≤ 4096 := by omega
    have hset : set_ptr nd i p = some (writeBytes nd (4 + 8 * i) (u64_to_le_bytes p)) := by
      rw [set_ptr_eq nd i p (by omega), if_pos ⟨hi, hfit8⟩]
    have hk1 : n_keys (writeBytes nd (4 + 8 * i) (u64_to_le_bytes p)) = n_keys nd :=
      n_keys_writeBytes_high nd (4 + 8 * i) (u64_to_le_bytes p) (by omega)
    obtain ⟨nd2, hrun, hlow, hhigh, hptr⟩ :=
      ih (writeBytes nd (4 + 8 * i) (u64_to_le_bytes p)) (i + 1) (by omega)
        (by rw [hk1]; omega)
    have hlen8 : (u64_to_le_bytes p).length = 8 := u64_to_le_bytes_length p
    refine ⟨nd2, ?_, ?_, ?_, ?_⟩
    · show (set_ptr nd i p).bind (fun nd1 => setPtrsFrom nd1 (i + 1) ps) = some nd2
      rw [hset, Option.some_bind]
      exact hrun
    · intro k hk
      rw [hlow k (by omega)]
      exact byteAt_writeBytes_out nd (4 + 8 * i) (u64_to_le_bytes p) k (by omega)
    · intro k hk
      simp only [List.length_cons] at hk
      rw [hhigh k (by omega)]
      exact byteAt_writeBytes_out nd (4 + 8 * i) (u64_to_le_bytes p) k (by omega)
    · intro j hj
      cases j with
      | zero =>
        have hcongr : get_ptr nd2 i =
            get_ptr (writeBytes nd (4 + 8 * i) (u64_to_le_bytes p)) i := by
          apply get_ptr_congr
          · omega
          · exact n_keys_congr _ _ (hlow 2 (by omega)) (hlow 3 (by omega))
          · intro k hk1 hk2
            exact hlow k (by omega)
        rw [Nat.add_zero, hcongr, get_ptr_after_write nd i p hfit8 hi]
        rfl
      | succ j1 =>
        have hj1 : j1 < ps.length := by simp at hj; omega
        have heq : i + (j1 + 1) = i + 1 + j1 := by omega
        rw [heq, hptr j1 hj1]
        rfl

/-! ### Success-implies-exact-layout elimination lemmas -/

/-- A successful nonzero `get_offset` read, under a no-wrap bound, comes from
the exact table position `4 + 8 * n_keys + 2 * (idx - 1)` inside the page. -/
theorem get_offset_some_exact (nd : BNode) (idx v : Nat)
    (hw : 4 + 8 * n_keys nd + 2 * (idx - 1) + 2 < 65536) (h0 : idx ≠ 0)
    (h : get_offset nd idx = some v) :
    1 < idx ∧ idx < n_keys nd ∧ 4 + 8 * n_keys nd + 2 * (idx - 1) + 2 ≤ 4096 ∧
      v = le_decode (pageBytes nd (4 + 8 * n_keys nd + 2 * (idx - 1)) 2) := by
  rw [get_offset_eq nd idx h0 hw] at h
  split at h
  · rename_i hc
    injection h with h
    exact ⟨hc.1, hc.2.1, hc.2.2, h.symm⟩
  · exact absurd h (by simp)

/-- A successful `set_offset`, under a no-wrap bound, overwrites exactly the
2 bytes at the table position `4 + 8 * n_keys + 2 * (idx - 1)`. -/
theorem set_offset_some_exact (nd : BNode) (idx value : Nat) (nd1 : BNode)
    (hw : 4 + 8 * n_keys nd + 2 * (idx - 1) + 2 < 65536)
    (h : set_offset nd idx value = some nd1) :
    1 < idx ∧ idx < n_keys nd ∧ 4 + 8 * n_keys nd + 2 * (idx - 1) + 2 ≤ 4096 ∧
      nd1 = writeBytes nd (4 + 8 * n_keys nd + 2 * (idx - 1)) (u16_to_le_bytes value) := by
  unfold set_offset at h
  rw [offset_position_eq nd idx (by omega)] at h
  split at h
  · rename_i hc
    rw [Option.some_bind, writeBytesChecked_mod nd (4 + 8 * n_keys nd + 2 * (idx - 1)) _
      (u16_to_le_bytes value) 2 (u16_to_le_bytes_length value) rfl (by omega) (by omega)] at h
    split at h
    · rename_i hc2
      injection h with h
      exact ⟨hc.1, hc.2, hc2, h.symm⟩
    · exact absurd h (by simp)
  · exact absurd h (by simp)

/-- A successful `get_kv_pair_position`, when the record-position formula
cannot wrap, returns the exact record position. -/
theorem get_kv_pair_position_some_exact (nd : BNode) (idx v : Nat)
    (hw : ∀ off, get_offset nd idx = some off →
      4 + 8 * n_keys nd + 2 * n_keys nd + off < 65536)
    (h : get_kv_pair_position nd idx = some v) :
    idx < n_keys nd ∧ ∃ off, get_offset nd idx = some off ∧
      v = 4 + 8 * n_keys nd + 2 * n_keys nd + off := by
  obtain ⟨hidx, off, hoff, hv⟩ := get_kv_pair_position_some_elim nd idx v h
  refine ⟨hidx, off, hoff, ?_⟩
  rw [hv]
  exact Nat.mod_eq_of_lt (hw off hoff)

/-- A successful `get_key`, when the record position cannot wrap, reads the
key length at the exact record position and the key bytes right after the
4-byte record header, all within the page. -/
theorem get_key_some_elim (nd : BNode) (idx : Nat) (bs : List Nat)
    (hw : ∀ off, get_offset nd idx = some off →
      4 + 8 * n_keys nd + 2 * n_keys nd + off + 4 < 65536)
    (h : get_key nd idx = some bs) :
    idx < n_keys nd ∧ ∃ off, get_offset nd idx = some off ∧
      4 + 8 * n_keys nd + 2 * n_keys nd + off + 2 ≤ 4096 ∧
      4 + 8 * n_keys nd + 2 * n_keys nd + off + 4 +
        le_decode (pageBytes nd (4 + 8 * n_keys nd + 2 * n_keys nd + off) 2) ≤ 4096 ∧
      bs = pageBytes nd (4 + 8 * n_keys nd + 2 * n_keys nd + off + 4)
        (le_decode (pageBytes nd (4 + 8 * n_keys nd + 2 * n_keys nd + off) 2)) := by
  unfold get_key at h
  split at h
  · rename_i hidx
    simp only [Option.bind_eq_some] at h
    obtain ⟨position, hpos, key_length, ⟨l, hl, hu⟩, hs2⟩ := h
    obtain ⟨_, off, hoff, hposval⟩ := get_kv_pair_position_some_elim nd idx position hpos
    have hwoff := hw off hoff
    have hP : position = 4 + 8 * n_keys nd + 2 * n_keys nd + off := by
      rw [hposval]
      exact Nat.mod_eq_of_lt (by omega)
    subst hP
    rw [slice_mod nd _ _ 2 rfl (by omega) (by omega)] at hl
    split at hl
    · rename_i hc2
      injection hl with hl
      rw [← hl] at hu
      unfold u16_from_le_bytes at hu
      rw [if_pos (pageBytes_length nd _ 2)] at hu
      injection hu with hu
      have hKlt : key_length < 65536 := by
        rw [← hu]
        exact le_decode_pageBytes_two_lt nd _
      rw [show (4 + 8 * n_keys nd + 2 * n_keys nd + off + 4) % 65536 =
        4 + 8 * n_keys nd + 2 * n_keys nd + off + 4 from Nat.mod_eq_of_lt (by omega)] at hs2
      rw [slice_mod nd _ _ key_length rfl (by omega) hKlt] at hs2
      split at hs2
      · rename_i hc3
        injection hs2 with hs2
        exact ⟨hidx, off, hoff, hc2, by omega, by rw [← hs2, hu]⟩
      · exact absurd hs2 (by simp)
    · exact absurd hl (by simp)
  · exact absurd h (by simp)

/-- A successful `get_value`, when the value position cannot wrap, reads both
lengths at the exact record position and the value bytes right after the key
bytes, all within the page. -/
theorem get_value_some_elim (nd : BNode) (idx : Nat) (bs : List Nat)
    (hw : ∀ off, get_offset nd idx = some off →
      4 + 8 * n_keys nd + 2 * n_keys nd + off + 4 +
        le_decode (pageBytes nd (4 + 8 * n_keys nd + 2 * n_keys nd + off) 2) < 65536)
    (h : get_value nd idx = some bs) :
    idx < n_keys nd ∧ ∃ off, get_offset nd idx = some off ∧
      4 + 8 * n_keys nd + 2 * n_keys nd + off + 4 ≤ 4096 ∧
      4 + 8 * n_keys nd + 2 * n_keys nd + off + 4 +
        le_decode (pageBytes nd (4 + 8 * n_keys nd + 2 * n_keys nd + off) 2) +
        le_decode (pageBytes nd (4 + 8 * n_keys nd + 2 * n_keys nd + off + 2) 2) ≤ 4096 ∧
      bs = pageBytes nd
        (4 + 8 * n_keys nd + 2 * n_keys nd + off + 4 +
          le_decode (pageBytes nd (4 + 8 * n_keys nd + 2 * n_keys nd + off) 2))
        (le_decode (pageBytes nd (4 + 8 * n_keys nd + 2 * n_keys nd + off + 2) 2)) := by
  unfold get_value at h
  split at h
  · rename_i hidx
    simp only [Option.bind_eq_some] at h
    obtain ⟨position, hpos, key_length, ⟨l, hl, hu⟩, value_length, ⟨l2, hl2, hu2⟩, hs3⟩ := h
    obtain ⟨_, off, hoff, hposval⟩ := get_kv_pair_position_some_elim nd idx position hpos
    have hwoff := hw off hoff
    have hP : position = 4 + 8 * n_keys nd + 2 * n_keys nd + off := by
      rw [hposval]
      exact Nat.mod_eq_of_lt (by omega)
    subst hP
    rw [slice_mod nd _ _ 2 rfl (by omega) (by omega)] at hl
    split at hl
    · rename_i hc2
      injection hl with hl
      rw [← hl] at hu
      unfold u16_from_le_bytes at hu
      rw [if_pos (pageBytes_length nd _ 2)] at hu
      injection hu with hu
      have hKlt : key_length < 65536 := by
        rw [← hu]
        exact le_decode_pageBytes_two_lt nd _
      rw [show (4 + 8 * n_keys nd + 2 * n_keys nd + off + 2) % 65536 =
        4 + 8 * n_keys nd + 2 * n_keys nd + off + 2 from Nat.mod_eq_of_lt (by omega)] at hl2
      rw [show (4 + 8 * n_keys nd + 2 * n_keys nd + off + 4) % 65536 =
        4 + 8 * n_keys nd + 2 * n_keys nd + off + 4 from Nat.mod_eq_of_lt (by omega)] at hl2 hs3
      rw [slice_mod nd _ _ 2 (by omega) (by omega) (by omega)] at hl2
      split at hl2
      · rename_i hc3
        injection hl2 with hl2
        rw [← hl2] at hu2
        unfold u16_from_le_bytes at hu2
        rw [if_pos (pageBytes_length nd _ 2)] at hu2
        injection hu2 with hu2
        have hVlt : value_length < 65536 := by
          rw [← hu2]
          exact le_decode_pageBytes_two_lt nd _
        rw [← hu] at hs3
        rw [show (4 + 8 * n_keys nd + 2 * n_keys nd + off + 4 +
          le_decode (pageBytes nd (4 + 8 * n_keys nd + 2 * n_keys nd + off) 2)) % 65536 =
          4 + 8 * n_keys nd + 2 * n_keys nd + off + 4 +
          le_decode (pageBytes nd (4 + 8 * n_keys nd + 2 * n_keys nd + off) 2)
          from Nat.mod_eq_of_lt (by omega)] at hs3
        rw [slice_mod nd _ _ value_length rfl (by omega) hVlt] at hs3
        split at hs3
        · rename_i hc4
          injection hs3 with hs3
          exact ⟨hidx, off, hoff, by omega, by omega, by rw [← hs3, hu2]⟩
        · exact absurd hs3 (by simp)
      · exact absurd hl2 (by simp)
    · exact absurd hl (by simp)
  · exact absurd h (by simp)

/-! ### Claim theorems -/

/-- C1: `num_used_bytes` never returns: it calls
`get_kv_pair_position (n_keys nd)`, whose `assert!(idx < n_keys)` fails for
`idx = n_keys` on every node, so the call always panics instead of returning
the high-water mark `4 + 8 * n_keys + 2 * n_keys + key_offset (n_keys)`. -/
theorem num_used_bytes_always_fails (nd : BNode) : num_used_bytes nd = none := by
  unfold num_used_bytes get_kv_pair_position
  simp

/-- C2: the claim says `get_offset idx` returns the stored table entry for
every `1 ≤ idx < n_keys`, but `offset_position` asserts `1 < idx`, so the
call panics at `idx = 1` on every node that has at least two keys. -/
theorem get_offset_idx_one_fails (nd : BNode) (h : 1 < n_keys nd) :
    get_offset nd 1 = none :=
  get_offset_one_none nd

theorem get_offset_idx_one_fails_witness :
    1 < n_keys node2 ∧ get_offset node2 1 = none :=
  ⟨by decide, get_offset_idx_one_fails node2 (by decide)⟩

/-- C4: the claim says `get_kv_pair_position idx` returns
`4 + 8 * n_keys + 2 * n_keys + get_offset idx` for every `idx < n_keys`, but
through `get_offset`'s `assert!(1 < idx)` the call panics at `idx = 1` on
every node that has at least two keys. -/
theorem get_kv_pair_position_idx_one_fails (nd : BNode) (h : 1 < n_keys nd) :
    get_kv_pair_position nd 1 = none :=
  get_kv_pair_position_one_none nd

theorem get_kv_pair_position_idx_one_fails_witness :
    1 < n_keys node2 ∧ get_kv_pair_position node2 1 = none :=
  ⟨by decide, get_kv_pair_position_idx_one_fails node2 (by decide)⟩

/-- `get_key` panics on index 1 regardless of the node. -/
theorem get_key_one_none (nd : BNode) : get_key nd 1 = none := by
  unfold get_key
  rw [get_kv_pair_position_one_none]
  split
  · rfl
  · rfl

/-- `get_value` panics on index 1 regardless of the node. -/
theorem get_value_one_none (nd : BNode) : get_value nd 1 = none := by
  unfold get_value
  rw [get_kv_pair_position_one_none]
  split
  · rfl
  · rfl

/-- C5: the claim says `get_key` and `get_value` return the key and value
byte slices for every `idx < n_keys`, but both panic at `idx = 1` on every
node that has at least two keys, through `get_offset`'s `assert!(1 < idx)`. -/
theorem get_key_get_value_idx_one_fail (nd : BNode) (h : 1 < n_keys nd) :
    get_key nd 1 = none ∧ get_value nd 1 = none :=
  ⟨get_key_one_none nd, get_value_one_none nd⟩

theorem get_key_get_value_idx_one_fail_witness :
    1 < n_keys node2 ∧ get_key node2 1 = none ∧ get_value node2 1 = none :=
  ⟨by decide, get_key_get_value_idx_one_fail node2 (by decide)⟩

/-- C9: `b_type` decodes the 2-byte little-endian tag at offset 0 and yields
`InternalNode` exactly for tag 1, `LeafNode` exactly for tag 2, and panics
(`unreachable!`) for every other stored tag value. -/
theorem b_type_tag_spec (nd : BNode) :
    (b_type nd = some BNodeType.InternalNode ↔ byteAt nd 0 + 256 * byteAt nd 1 = 1) ∧
    (b_type nd = some BNodeType.LeafNode ↔ byteAt nd 0 + 256 * byteAt nd 1 = 2) ∧
    (byteAt nd 0 + 256 * byteAt nd 1 ≠ 1 → byteAt nd 0 + 256 * byteAt nd 1 ≠ 2 →
      b_type nd = none) := by
  unfold b_type
  rcases hm : byteAt nd 0 + 256 * byteAt nd 1 with _ | _ | _ | m <;>
    simp [BNodeType.from_u16]

theorem b_type_tag_spec_witness :
    byteAt nodeTag7 0 + 256 * byteAt nodeTag7 1 = 7 ∧ b_type nodeTag7 = none :=
  ⟨by decide, (b_type_tag_spec nodeTag7).2.2 (by decide) (by decide)⟩

/-- C10: `set_header` validates nothing: for every tag value and every count
it succeeds, writing the tag little-endian into bytes 0..2 and the count into
bytes 2..4, leaving every byte from offset 4 on unchanged; an invalid tag is
only detected by a later `b_type` call. -/
theorem set_header_unvalidated_spec (nd : BNode) (t n : Nat) :
    byteAt (set_header nd t n) 0 = t % 256 ∧
    byteAt (set_header nd t n) 1 = t / 256 % 256 ∧
    byteAt (set_header nd t n) 2 = n % 256 ∧
    byteAt (set_header nd t n) 3 = n / 256 % 256 ∧
    (∀ k, 4 ≤ k → byteAt (set_header nd t n) k = byteAt nd k) ∧
    n_keys (set_header nd t n) = n % 65536 ∧
    b_type (set_header nd t n) = BNodeType.from_u16 (t % 65536) := by
  refine ⟨?_, ?_, ?_, ?_, ?_, n_keys_set_header nd t n, b_type_set_header nd t n⟩
  · rw [byteAt_set_header]
    norm_num
  · rw [byteAt_set_header]
    norm_num
  · rw [byteAt_set_header]
    norm_num
  · rw [byteAt_set_header]
    norm_num
  · intro k hk
    rw [byteAt_set_header, if_neg (by omega), if_neg (by omega), if_neg (by omega),
      if_neg (by omega)]

theorem set_header_unvalidated_spec_witness :
    byteAt (set_header zeroNode 7 70000) 0 = 7 ∧
    n_keys (set_header zeroNode 7 70000) = 4464 ∧
    b_type (set_header zeroNode 7 70000) = none ∧
    byteAt (set_header zeroNode 7 70000) 100 = byteAt zeroNode 100 := by
  have h := set_header_unvalidated_spec zeroNode 7 70000
  exact ⟨h.1, h.2.2.2.2.2.1, h.2.2.2.2.2.2, h.2.2.2.2.1 100 (by omega)⟩

/-- C3 counterexample: with a stored key count of 65535, `get_ptr 8192`
computes its slot offset in `u16` arithmetic, wraps from the layout-formula
offset `4 + 8 * 8192 = 65540` around to 4, and silently returns pointer
slot 0's value instead of failing, even though the formula offset lies far
outside the 4096-byte page. -/
theorem get_ptr_wraparound_counterexample :
    8192 < n_keys nodeF ∧ get_ptr nodeF 8192 = some 7 ∧ get_ptr nodeF 0 = some 7 ∧
      4096 < 4 + 8 * 8192 := by
  refine ⟨by decide, by decide, by decide, by omega⟩

/-- C3 (amended): every accessor call that returns normally touched only
bytes inside `[0, 4096)`, and as long as the relevant `u16` offset
computation cannot wrap, those bytes sit exactly at the offsets of the layout
formulas; for `get_ptr`/`set_ptr` the slot is `4 + 8 * idx`, for
`get_offset`/`set_offset` the table entry is `4 + 8 * n_keys + 2 * (idx-1)`,
for `get_kv_pair_position` the returned position is
`4 + 8 * n_keys + 2 * n_keys + offset`, and for `get_key`/`get_value` the
lengths are read at the record position and the key/value bytes directly
after the 4-byte record header. -/
theorem accessors_exact_or_fail (nd : BNode) (idx value : Nat) :
    (idx < 8192 → ∀ v, get_ptr nd idx = some v →
        idx < n_keys nd ∧ 4 + 8 * idx + 8 ≤ 4096 ∧
        v = le_decode (pageBytes nd (4 + 8 * idx) 8)) ∧
    (idx < 8192 → ∀ nd1, set_ptr nd idx value = some nd1 →
        idx < n_keys nd ∧ 4 + 8 * idx + 8 ≤ 4096 ∧
        nd1 = writeBytes nd (4 + 8 * idx) (u64_to_le_bytes value)) ∧
    (4 + 8 * n_keys nd + 2 * (idx - 1) + 2 < 65536 → idx ≠ 0 →
      ∀ v, get_offset nd idx = some v →
        1 < idx ∧ idx < n_keys nd ∧ 4 + 8 * n_keys nd + 2 * (idx - 1) + 2 ≤ 4096 ∧
        v = le_decode (pageBytes nd (4 + 8 * n_keys nd + 2 * (idx - 1)) 2)) ∧
    (4 + 8 * n_keys nd + 2 * (idx - 1) + 2 < 65536 →
      ∀ nd1, set_offset nd idx value = some nd1 →
        1 < idx ∧ idx < n_keys nd ∧ 4 + 8 * n_keys nd + 2 * (idx - 1) + 2 ≤ 4096 ∧
        nd1 = writeBytes nd (4 + 8 * n_keys nd + 2 * (idx - 1)) (u16_to_le_bytes value)) ∧
    ((∀ off, get_offset nd idx = some off →
        4 + 8 * n_keys nd + 2 * n_keys nd + off < 65536) →
      ∀ v, get_kv_pair_position nd idx = some v →
        idx < n_keys nd ∧ ∃ off, get_offset nd idx = some off ∧
          v = 4 + 8 * n_keys nd + 2 * n_keys nd + off) ∧
    ((∀ off, get_offset nd idx = some off →
        4 + 8 * n_keys nd + 2 * n_keys nd + off + 4 < 65536) →
      ∀ bs, get_key nd idx = some bs →
        idx < n_keys nd ∧ ∃ off, get_offset nd idx = some off ∧
          4 + 8 * n_keys nd + 2 * n_keys nd + off + 2 ≤ 4096 ∧
          4 + 8 * n_keys nd + 2 * n_keys nd + off + 4 +
            le_decode (pageBytes nd (4 + 8 * n_keys nd + 2 * n_keys nd + off) 2) ≤ 4096 ∧
          bs = pageBytes nd (4 + 8 * n_keys nd + 2 * n_keys nd + off + 4)
            (le_decode (pageBytes nd (4 + 8 * n_keys nd + 2 * n_keys nd + off) 2))) ∧
    ((∀ off, get_offset nd idx = some off →
        4 + 8 * n_keys nd + 2 * n_keys nd + off + 4 +
          le_decode (pageBytes nd (4 + 8 * n_keys nd + 2 * n_keys nd + off) 2) < 65536) →
      ∀ bs, get_value nd idx = some bs →
        idx < n_keys nd ∧ ∃ off, get_offset nd idx = some off ∧
          4 + 8 * n_keys nd + 2 * n_keys nd + off + 4 ≤ 4096 ∧
          4 + 8 * n_keys nd + 2 * n_keys nd + off + 4 +
            le_decode (pageBytes nd (4 + 8 * n_keys nd + 2 * n_keys nd + off) 2) +
            le_decode (pageBytes nd (4 + 8 * n_keys nd + 2 * n_keys nd + off + 2) 2) ≤ 4096 ∧
          bs = pageBytes nd
            (4 + 8 * n_keys nd + 2 * n_keys nd + off + 4 +
              le_decode (pageBytes nd (4 + 8 * n_keys nd + 2 * n_keys nd + off) 2))
            (le_decode (pageBytes nd (4 + 8 * n_keys nd + 2 * n_keys nd + off + 2) 2))) := by
  refine ⟨?_, ?_, ?_, ?_, ?_, ?_, ?_⟩
  · intro h8 v hv
    rw [get_ptr_eq nd idx h8] at hv
    split at hv
    · rename_i hc
      injection hv with hv
      exact ⟨hc.1, hc.2, hv.symm⟩
    · exact absurd hv (by simp)
  · intro h8 nd1 hset
    rw [set_ptr_eq nd idx value h8] at hset
    split at hset
    · rename_i hc
      injection hset with hset
      exact ⟨hc.1, hc.2, hset.symm⟩
    · exact absurd hset (by simp)
  · intro hw h0 v hv
    exact get_offset_some_exact nd idx v hw h0 hv
  · intro hw nd1 hset
    exact set_offset_some_exact nd idx value nd1 hw hset
  · intro hw v hv
    exact get_kv_pair_position_some_exact nd idx v hw hv
  · intro hw bs hbs
    exact get_key_some_elim nd idx bs hw hbs
  · intro hw bs hbs
    exact get_value_some_elim nd idx bs hw hbs

theorem accessors_exact_or_fail_witness :
    0 < n_keys nodePtr3 ∧ 4 + 8 * 0 + 8 ≤ 4096 ∧
      10 = le_decode (pageBytes nodePtr3 (4 + 8 * 0) 8) := by
  have h := (accessors_exact_or_fail nodePtr3 0 0).1 (by omega) 10 (by decide)
  exact h

/-- C6 counterexample: a page can claim 1000 keys (`set_header` writes any
count), and then for slot 600 — a perfectly valid index below the key
count — both `get_ptr` and `set_ptr` panic on the slice bounds check instead
of returning the pointer, because byte offset `4 + 8 * 600 = 4804` lies
outside the 4096-byte page. -/
theorem get_ptr_out_of_page_counterexample :
    n_keys node1000 = 1000 ∧ 600 < n_keys node1000 ∧ get_ptr node1000 600 = none ∧
      set_ptr node1000 600 5 = none := by
  refine ⟨by decide, by decide, by decide, rfl⟩

/-- C6 (amended): for `i < n_keys` with the slot inside the page
(`4 + 8 * i + 8 ≤ 4096`), pointer slot `i` occupies exactly the 8 bytes at
offset `4 + 8 * i` little-endian: `get_ptr` decodes exactly those bytes and
`set_ptr` overwrites exactly those bytes; a call with `i ≥ n_keys` is a
contract failure, and so is a call with `i < n_keys` whose slot extends past
the page (as long as the `u16` slot computation cannot wrap). -/
theorem get_ptr_set_ptr_slot_spec (nd : BNode) (i p : Nat) :
    (4 + 8 * i + 8 ≤ 4096 → i < n_keys nd →
      get_ptr nd i = some (le_decode (pageBytes nd (4 + 8 * i) 8)) ∧
      set_ptr nd i p = some (writeBytes nd (4 + 8 * i) (u64_to_le_bytes p))) ∧
    (n_keys nd ≤ i → get_ptr nd i = none ∧ set_ptr nd i p = none) ∧
    (i < n_keys nd → 4096 < 4 + 8 * i + 8 → 4 + 8 * i + 8 < 65536 →
      get_ptr nd i = none ∧ set_ptr nd i p = none) := by
  refine ⟨?_, ?_, ?_⟩
  · intro hfit hik
    constructor
    · rw [get_ptr_eq nd i (by omega), if_pos ⟨hik, hfit⟩]
    · rw [set_ptr_eq nd i p (by omega), if_pos ⟨hik, hfit⟩]
  · intro hge
    constructor
    · unfold get_ptr
      rw [if_neg (by omega)]
    · unfold set_ptr
      rw [if_neg (by omega)]
  · intro hik hbig hnw
    constructor
    · rw [get_ptr_eq nd i (by omega), if_neg (by omega)]
    · rw [set_ptr_eq nd i p (by omega), if_neg (by omega)]

theorem get_ptr_set_ptr_slot_spec_witness :
    get_ptr nodePtr3 2 = some (le_decode (pageBytes nodePtr3 (4 + 8 * 2) 8)) ∧
    get_ptr nodePtr3 5 = none := by
  constructor
  · exact ((get_ptr_set_ptr_slot_spec nodePtr3 2 0).1 (by omega) (by decide)).1
  · exact ((get_ptr_set_ptr_slot_spec nodePtr3 5 0).2.1 (by decide)).1

/-- C7 counterexample: for count 512 the claimed round trip cannot even be
performed: writing the header with count 512 and then every pointer slot
panics at slot 511, whose 8 bytes would end at offset 4100, past the
4096-byte page. -/
theorem round_trip_overflow_counterexample :
    setPtrs (set_header zeroNode 1 512) (List.replicate 512 0) = none := by
  have hkeys : n_keys (set_header zeroNode 1 512) = 512 := by decide
  have hsplit : List.replicate 512 (0 : Nat) =
      List.replicate 511 0 ++ [0] := by
    rw [← List.replicate_succ']
  have happend : ∀ (xs ys : List Nat) (nd : BNode) (i : Nat),
      setPtrsFrom nd i (xs ++ ys) =
        (setPtrsFrom nd i xs).bind fun nd1 => setPtrsFrom nd1 (i + xs.length) ys := by
    intro xs
    induction xs with
    | nil =>
      intro ys nd i
      simp [setPtrsFrom]
    | cons x xs ih =>
      intro ys nd i
      show (set_ptr nd i x).bind (fun nd1 => setPtrsFrom nd1 (i + 1) (xs ++ ys)) =
        ((set_ptr nd i x).bind fun nd1 => setPtrsFrom nd1 (i + 1) xs).bind
          fun nd1 => setPtrsFrom nd1 (i + (x :: xs).length) ys
      rcases hx : set_ptr nd i x with _ | nd1
      · rfl
      · simp only [Option.some_bind]
        rw [ih ys nd1 (i + 1)]
        have hidx : i + 1 + xs.length = i + (x :: xs).length := by
          simp only [List.length_cons]
          omega
        rw [hidx]
  obtain ⟨nd1, hrun, hlow, hhigh, hptr⟩ :=
    setPtrsFrom_spec (List.replicate 511 0) (set_header zeroNode 1 512) 0
      (by rw [List.length_replicate]; omega)
      (by rw [List.length_replicate, hkeys]; omega)
  unfold setPtrs
  rw [hsplit, happend, hrun, Option.some_bind]
  show (set_ptr nd1 (0 + (List.replicate 511 (0 : Nat)).length) 0).bind
    (fun nd2 => setPtrsFrom nd2 (0 + (List.replicate 511 (0 : Nat)).length + 1) []) = none
  simp only [List.length_replicate, Nat.zero_add]
  rw [set_ptr_eq nd1 511 0 (by omega), if_neg (by omega)]
  rfl

/-- C7 (amended): the header-and-pointers round trip holds for every node
kind tag in {1, 2} and every count `n` whose pointer slots all fit in the
page (`4 + 8 * n ≤ 4096`, i.e. `n ≤ 511`): after `set_header` with tag `t`
and count `n` and a successful `set_ptr` of every slot `i < n` with a `u64`
value, `b_type` decodes the kind tagged `t`, `n_keys` returns `n`, and every
`get_ptr i` returns the pointer written to slot `i`.  For larger counts the
write sequence itself panics, as the counterexample shows. -/
theorem header_ptr_round_trip (nd : BNode) (t n : Nat) (ps : List Nat)
    (ht : t = 1 ∨ t = 2) (hlen : ps.length = n) (hfit : 4 + 8 * n ≤ 4096)
    (hp : ∀ p ∈ ps, p < 18446744073709551616) :
    ∃ nd1, setPtrs (set_header nd t n) ps = some nd1 ∧
      b_type nd1 = BNodeType.from_u16 t ∧
      n_keys nd1 = n ∧
      ∀ j, (hj : j < ps.length) → get_ptr nd1 j = some (ps.get ⟨j, hj⟩) := by
  have hn : n < 65536 := by omega
  have hkeys0 : n_keys (set_header nd t n) = n := by
    rw [n_keys_set_header]
    exact Nat.mod_eq_of_lt hn
  obtain ⟨nd1, hrun, hlow, hhigh, hptr⟩ := setPtrsFrom_spec ps (set_header nd t n) 0
    (by omega) (by rw [hkeys0]; omega)
  refine ⟨nd1, hrun, ?_, ?_, ?_⟩
  · rw [b_type_congr nd1 (set_header nd t n) (hlow 0 (by omega)) (hlow 1 (by omega)),
      b_type_set_header]
    congr 1
    rcases ht with h | h <;> subst h <;> rfl
  · rw [n_keys_congr nd1 (set_header nd t n) (hlow 2 (by omega)) (hlow 3 (by omega)),
      hkeys0]
  · intro j hj
    have hmem : ps.get ⟨j, hj⟩ ∈ ps := List.get_mem ps j hj
    have := hptr j hj
    rw [Nat.zero_add j] at this
    rw [this, Nat.mod_eq_of_lt (hp _ hmem)]

theorem header_ptr_round_trip_witness :
    ((setPtrs (set_header zeroNode 1 3) [10, 20, 30]).map n_keys) = some 3 ∧
    ((setPtrs (set_header zeroNode 1 3) [10, 20, 30]).bind fun nd1 => get_ptr nd1 2) =
      some 30 := by
  obtain ⟨nd1, hrun, htype, hkeys, hptr⟩ :=
    header_ptr_round_trip zeroNode 1 3 [10, 20, 30] (Or.inl rfl) rfl (by omega) (by decide)
  rw [hrun]
  constructor
  · simp [hkeys]
  · simp only [Option.some_bind]
    exact hptr 2 (by decide)

/-- C8 counterexample: on a page with key count 65535, `set_ptr 8192 1`
succeeds but its `u16` slot offset wraps around to 4, so it silently
overwrites pointer slot 0: afterwards `get_ptr 0` returns 1 although slot 0
held 7 before the call and `0 ≠ 8192`. -/
theorem set_ptr_alias_counterexample :
    8192 < n_keys nodeF ∧ 0 < n_keys nodeF ∧ (0 : Nat) ≠ 8192 ∧
      ((set_ptr nodeF 8192 1).bind fun nd1 => get_ptr nd1 0) = some 1 ∧
      get_ptr nodeF 0 = some 7 := by
  refine ⟨by decide, by decide, by omega, by decide, by decide⟩

/-- C8 (amended): for slot indices below 8192 (so the `u16` slot-offset
computation cannot wrap), a successful `set_ptr i v` on a node with
`i, j < n_keys` and `j ≠ i` makes `get_ptr i` return `v`, leaves `get_ptr j`
unchanged, and leaves every byte outside the 8-byte region
`[4 + 8 * i, 4 + 8 * i + 8)` unchanged.  Without the wrap restriction the
property fails, as the counterexample shows. -/
theorem set_ptr_frame_spec (nd nd1 : BNode) (i j v : Nat)
    (hi : i < 8192) (hj : j < 8192) (hji : j ≠ i)
    (hin : i < n_keys nd) (hjn : j < n_keys nd)
    (hv : v < 18446744073709551616)
    (hset : set_ptr nd i v = some nd1) :
    get_ptr nd1 i = some v ∧
    get_ptr nd1 j = get_ptr nd j ∧
    ∀ k, k < 4 + 8 * i ∨ 4 + 8 * i + 8 ≤ k → byteAt nd1 k = byteAt nd k := by
  rw [set_ptr_eq nd i v hi] at hset
  split at hset
  · rename_i hc
    injection hset with hset
    subst hset
    have h8 : (u64_to_le_bytes v).length = 8 := u64_to_le_bytes_length v
    refine ⟨?_, ?_, ?_⟩
    · rw [get_ptr_after_write nd i v hc.2 hc.1, Nat.mod_eq_of_lt hv]
    · apply get_ptr_congr _ _ j hj
      · exact n_keys_writeBytes_high nd (4 + 8 * i) (u64_to_le_bytes v) (by omega)
      · intro k hk1 hk2
        exact byteAt_writeBytes_out nd (4 + 8 * i) (u64_to_le_bytes v) k (by omega)
    · intro k hk
      exact byteAt_writeBytes_out nd (4 + 8 * i) (u64_to_le_bytes v) k (by omega)
  · exact absurd hset (by simp)

theorem set_ptr_frame_spec_witness :
    get_ptr (writeBytes nodePtr3 (4 + 8 * 1) (u64_to_le_bytes 99)) 1 = some 99 ∧
    get_ptr (writeBytes nodePtr3 (4 + 8 * 1) (u64_to_le_bytes 99)) 0 = get_ptr nodePtr3 0 := by
  have hset : set_ptr nodePtr3 1 99 =
      some (writeBytes nodePtr3 (4 + 8 * 1) (u64_to_le_bytes 99)) := rfl
  have h := set_ptr_frame_spec nodePtr3 (writeBytes nodePtr3 (4 + 8 * 1) (u64_to_le_bytes 99))
    1 0 99 (by omega) (by omega) (by omega) (by decide) (by decide) (by omega) hset
  exact ⟨h.1, h.2.1⟩
